/-
Verification of the option-pricing and delta-hedging library (utils.py) of the
Asian-options-hedging repository.

The embedding works over exact real arithmetic.  The standard normal CDF
(scipy's norm.cdf) is passed to each definition as an explicit function
parameter `Φ : ℝ → ℝ`.  The (n_sims × n_steps) matrix of standard-normal
draws that numpy produces inside GBM_paths is made an explicit argument
`noise : List (List ℝ)` (one inner list per simulated path).  A Python
function that can `raise` is embedded as a function into `Except String`.
Option types are kept as strings, as in the source.
-/
import Mathlib

namespace AsianHedging

noncomputable section

/-! ## Analytic pricers (source lines 8–105) -/

/-- Black-Scholes d1, shared by `bs_price` and `bs_delta`:
`(np.log(S0/K) + (r + (0.5)*sigma**2)*t)/(sigma*np.sqrt(t))`. -/
def bs_d1 (S0 K sigma t r : ℝ) : ℝ :=
  (Real.log (S0 / K) + (r + (1/2) * sigma^2) * t) / (sigma * Real.sqrt t)

/-- The Black-Scholes price for a valid option type (`isCall = true` for
"call", `false` for "put"), the two non-raising branches of `bs_price`. -/
def bs_price_b (Φ : ℝ → ℝ) (S0 K sigma t r : ℝ) (isCall : Bool) : ℝ :=
  let d1 := bs_d1 S0 K sigma t r
  let d2 := d1 - sigma * Real.sqrt t
  if isCall then S0 * Φ d1 - K * Real.exp (-(r * t)) * Φ d2
  else -S0 * Φ (-d1) + K * Real.exp (-(r * t)) * Φ (-d2)

/-- `bs_price` with its option-type dispatch (put checked first, as in the
source) and the `ValueError` raised on anything else. -/
def bs_price (Φ : ℝ → ℝ) (S0 K sigma t r : ℝ) (option_type : String) :
    Except String ℝ :=
  if option_type = "put" then .ok (bs_price_b Φ S0 K sigma t r false)
  else if option_type = "call" then .ok (bs_price_b Φ S0 K sigma t r true)
  else .error ("Unrecognized option type: " ++ option_type)

/-- The Black-Scholes delta for a valid option type: `norm.cdf(d1)` for a
call, `norm.cdf(d1) - 1` for a put. -/
def bs_delta_b (Φ : ℝ → ℝ) (S0 K sigma t r : ℝ) (isCall : Bool) : ℝ :=
  if isCall then Φ (bs_d1 S0 K sigma t r) else Φ (bs_d1 S0 K sigma t r) - 1

/-- `bs_delta` with its option-type dispatch and error. -/
def bs_delta (Φ : ℝ → ℝ) (S0 K sigma t r : ℝ) (option_type : String) :
    Except String ℝ :=
  if option_type = "put" then .ok (bs_delta_b Φ S0 K sigma t r false)
  else if option_type = "call" then .ok (bs_delta_b Φ S0 K sigma t r true)
  else .error ("Unrecognized option type: " ++ option_type)

/-- The geometric-Asian adjusted drift `b = (r - sigma**2 / 6) / 2`. -/
def gao_b (sigma r : ℝ) : ℝ := (r - sigma^2 / 6) / 2

/-- The geometric-Asian d1:
`np.sqrt(3)*(np.log(S0/K) + (b + sigma**2 / 6)*t) / (sigma * np.sqrt(t))`. -/
def gao_d1 (S0 K sigma t r : ℝ) : ℝ :=
  Real.sqrt 3 * (Real.log (S0 / K) + (gao_b sigma r + sigma^2 / 6) * t) /
    (sigma * Real.sqrt t)

/-- The geometric-Asian price for a valid option type. -/
def gao_price_b (Φ : ℝ → ℝ) (S0 K sigma t r : ℝ) (isCall : Bool) : ℝ :=
  let b := gao_b sigma r
  let d1 := gao_d1 S0 K sigma t r
  let d2 := d1 - sigma * Real.sqrt (t / 3)
  if isCall then
    S0 * Real.exp ((b - r) * t) * Φ d1 - K * Real.exp (-(r * t)) * Φ d2
  else
    K * Real.exp (-(r * t)) * Φ (-d2) - S0 * Real.exp ((b - r) * t) * Φ (-d1)

/-- `gao_price` with its option-type dispatch and error. -/
def gao_price (Φ : ℝ → ℝ) (S0 K sigma t r : ℝ) (option_type : String) :
    Except String ℝ :=
  if option_type = "put" then .ok (gao_price_b Φ S0 K sigma t r false)
  else if option_type = "call" then .ok (gao_price_b Φ S0 K sigma t r true)
  else .error ("Unrecognized option type: " ++ option_type)

/-- The geometric-Asian delta for a valid option type:
`np.exp((b-r)*t) * norm.cdf(d1)` for a call,
`np.exp((b-r)*t) * (norm.cdf(d1) - 1)` for a put. -/
def gao_delta_b (Φ : ℝ → ℝ) (S0 K sigma t r : ℝ) (isCall : Bool) : ℝ :=
  if isCall then Real.exp ((gao_b sigma r - r) * t) * Φ (gao_d1 S0 K sigma t r)
  else Real.exp ((gao_b sigma r - r) * t) * (Φ (gao_d1 S0 K sigma t r) - 1)

/-- `gao_delta` with its option-type dispatch and error. -/
def gao_delta (Φ : ℝ → ℝ) (S0 K sigma t r : ℝ) (option_type : String) :
    Except String ℝ :=
  if option_type = "put" then .ok (gao_delta_b Φ S0 K sigma t r false)
  else if option_type = "call" then .ok (gao_delta_b Φ S0 K sigma t r true)
  else .error ("Unrecognized option type: " ++ option_type)

/-- `gao_asian_conditional_delta` (source lines 108–155): the conditional
delta of a geometric Asian call at remaining time `tau`, given current spot
`S_t` and running geometric average `G_t`, for total maturity `T`. -/
def gao_asian_conditional_delta (Φ : ℝ → ℝ) (S_t G_t K sigma tau r T : ℝ) : ℝ :=
  if tau ≤ 0 then (if G_t > K then 1 else 0)
  else
    let sigma_eff := sigma * Real.sqrt (tau / (3 * T))
    let r_eff := (tau / (2 * T)) * (r - (1/2) * sigma^2) + (sigma^2 * tau) / (6 * T)
    let S_eff := G_t * (S_t / G_t) ^ (tau / T)
    let d1 := (Real.log (S_eff / K) + r_eff + (1/2) * sigma_eff^2) / sigma_eff
    let dS_eff_dS := (tau / T) * S_eff / S_t
    Real.exp (-(r * tau)) * Real.exp (r_eff + (1/2) * sigma_eff^2) * Φ d1 * dS_eff_dS

/-! ## Path simulation (source lines 161–179) -/

/-- One per-step log-return:
`(mu+r-sigma**2*(0.5))*t/n_steps + sigma*np.sqrt(t/n_steps)*noise`.
The model's real division is total (`t/0 = 0`), whereas the source raises
`ZeroDivisionError` at `n_steps = 0`; statements about the path generator
therefore carry an `n_steps ≥ 1` hypothesis. -/
def log_return (sigma t r mu : ℝ) (n_steps : ℕ) (z : ℝ) : ℝ :=
  (mu + r - sigma^2 * (1/2)) * t / n_steps + sigma * Real.sqrt (t / n_steps) * z

/-- `np.cumsum` along a row, with a running accumulator. -/
def cumsum_go (acc : ℝ) : List ℝ → List ℝ
  | [] => []
  | x :: xs => (acc + x) :: cumsum_go (acc + x) xs

/-- `np.cumsum` of a row of per-step log-returns. -/
def cumsum (l : List ℝ) : List ℝ := cumsum_go 0 l

/-- One simulated GBM path: the initial price `S0` prepended
(`np.insert(..., 0, S0, axis=1)`) to `S0*np.exp(np.cumsum(log_returns))`. -/
def GBM_row (S0 sigma t r mu : ℝ) (n_steps : ℕ) (noiseRow : List ℝ) : List ℝ :=
  S0 :: (cumsum (noiseRow.map (log_return sigma t r mu n_steps))).map
    (fun c => S0 * Real.exp c)

/-- `GBM_paths`: the full (n_sims × (n_steps+1)) grid of simulated paths, one
row per row of the externally drawn noise matrix.  The source performs no
parameter validation, so the function is total. -/
def GBM_paths (S0 sigma t r mu : ℝ) (n_sims n_steps : ℕ)
    (noise : List (List ℝ)) : List (List ℝ) :=
  noise.map (GBM_row S0 sigma t r mu n_steps)

/-! ## Shared numpy helpers -/

/-- `np.mean` of a row. -/
def listMean (l : List ℝ) : ℝ := l.sum / l.length

/-- `np.std` (population standard deviation) of a row. -/
def listStd (l : List ℝ) : ℝ :=
  Real.sqrt (listMean (l.map (fun x => (x - listMean l)^2)))

/-- The averaged quantity entering an Asian payoff, per path:
`np.exp(np.mean(np.log(paths), axis=1))` when geometric,
`np.mean(paths, axis=1)` otherwise. -/
def asianAvg (geometric : Bool) (row : List ℝ) : ℝ :=
  if geometric then Real.exp (listMean (row.map Real.log)) else listMean row

/-! ## Vectorized European Monte Carlo (source lines 182–242) -/

/-- One path's hedged profit in the vectorized branch of
`monte_carlo_european` (`n_hedges > 0`): the discounted terminal payoff minus
the sum over rebalancing steps of the discounted stock-position profits, with
the per-column deltas `bs_delta(paths[:,k], K, sigma, t - times[k], r)` and
`times[k] = t*k/n_hedges` (numpy's `linspace(0, t, n_hedges+1)`). -/
def eurVecProfit (Φ : ℝ → ℝ) (K sigma t r : ℝ) (n_hedges : ℕ) (isCall : Bool)
    (row : List ℝ) : ℝ :=
  let S_t := row.getD (row.length - 1) 0
  let discounted_payoff :=
    Real.exp (-(r * t)) * (if isCall then max (S_t - K) 0 else max (K - S_t) 0)
  let times : ℕ → ℝ := fun k => t * k / n_hedges
  let profits := (List.range n_hedges).map (fun k =>
    (row.getD (k + 1) 0 - row.getD k 0 * Real.exp (r * t / n_hedges)) *
      Real.exp (-(r * times (k + 1))) *
      bs_delta_b Φ (row.getD k 0) K sigma (t - times k) r isCall)
  discounted_payoff - profits.sum

/-- `monte_carlo_european`: with `n_hedges = 0` the unhedged discounted
terminal payoff of a single-step path, otherwise the vectorized hedged
profit; returns the distribution when `return_distribution` is true and the
pair `(mean, std/sqrt(n_sims))` otherwise. -/
def monte_carlo_european (Φ : ℝ → ℝ) (S0 K sigma t r mu : ℝ)
    (n_sims n_hedges : ℕ) (return_distribution : Bool) (option_type : String)
    (noise : List (List ℝ)) : Except String ((List ℝ) ⊕ (ℝ × ℝ)) :=
  if n_hedges = 0 then
    let paths := GBM_paths S0 sigma t r mu n_sims 1 noise
    let S_t := paths.map (fun row => row.getD (row.length - 1) 0)
    if option_type = "call" then
      let dp := S_t.map (fun s => Real.exp (-(r * t)) * max (s - K) 0)
      .ok (if return_distribution then .inl dp
           else .inr (listMean dp, listStd dp / Real.sqrt n_sims))
    else if option_type = "put" then
      let dp := S_t.map (fun s => Real.exp (-(r * t)) * max (K - s) 0)
      .ok (if return_distribution then .inl dp
           else .inr (listMean dp, listStd dp / Real.sqrt n_sims))
    else .error ("Unrecognized option type: " ++ option_type)
  else
    let paths := GBM_paths S0 sigma t r mu n_sims n_hedges noise
    if option_type = "call" then
      let pr := paths.map (eurVecProfit Φ K sigma t r n_hedges true)
      .ok (if return_distribution then .inl pr
           else .inr (listMean pr, listStd pr / Real.sqrt n_sims))
    else if option_type = "put" then
      let pr := paths.map (eurVecProfit Φ K sigma t r n_hedges false)
      .ok (if return_distribution then .inl pr
           else .inr (listMean pr, listStd pr / Real.sqrt n_sims))
    else .error ("Unrecognized option type: " ++ option_type)

/-! ## Self-financing European hedge engine (source lines 245–300) -/

/-- The rebalancing loop of `mc_eur_sf_hedged`, per path.  The state is
`(Delta, B, S_next)`; the list argument holds the remaining columns
`paths[:, i+1], ...` still to be consumed, `i` being the Python loop index.
Each step accrues interest on the bond, recomputes the delta at remaining
time `tau = t - (i+1)*dt`, and pays the rebalancing cost out of the bond. -/
def sfLoop (Φ : ℝ → ℝ) (K sigma t r dt : ℝ) (isCall : Bool) :
    ℕ → ℝ × ℝ × ℝ → List ℝ → ℝ × ℝ × ℝ
  | _, st, [] => st
  | i, (Delta, B, _), S_next :: rest =>
    let B1 := B * Real.exp (r * dt)
    let tau := t - ((i : ℝ) + 1) * dt
    let new_Delta := bs_delta_b Φ S_next K sigma tau r isCall
    sfLoop Φ K sigma t r dt isCall (i + 1)
      (new_Delta, B1 - (new_Delta - Delta) * S_next, S_next) rest

/-- One path's profit in `mc_eur_sf_hedged`: initial delta and bond from the
premium, the rebalancing loop over columns 1..n_steps, terminal portfolio
value `Delta*S_last + B`, output `(V - payoff) * exp(-r*t)`. -/
def eurHedgePath (Φ : ℝ → ℝ) (S0 K sigma t r premium dt : ℝ) (isCall : Bool)
    (row : List ℝ) : ℝ :=
  let S := row.getD (row.length - 1) 0
  let payoff := if isCall then max (S - K) 0 else max (K - S) 0
  let Delta0 := bs_delta_b Φ S0 K sigma t r isCall
  let B0 := premium - Delta0 * S0
  let fin := sfLoop Φ K sigma t r dt isCall 0 (Delta0, B0, S0) row.tail
  (fin.1 * fin.2.2 + fin.2.1 - payoff) * Real.exp (-(r * t))

/-- `mc_eur_sf_hedged`: the distribution of the market-maker's discounted
self-financing hedging profits for a European option. -/
def mc_eur_sf_hedged (Φ : ℝ → ℝ) (S0 K sigma t r mu premium : ℝ)
    (n_sims n_steps : ℕ) (option_type : String) (noise : List (List ℝ)) :
    Except String (List ℝ) :=
  let dt := t / n_steps
  let paths := GBM_paths S0 sigma t r mu n_sims n_steps noise
  if option_type = "call" then
    .ok (paths.map (eurHedgePath Φ S0 K sigma t r premium dt true))
  else if option_type = "put" then
    .ok (paths.map (eurHedgePath Φ S0 K sigma t r premium dt false))
  else .error ("Unrecognized option type: " ++ option_type)

/-! ## Asian Monte Carlo (source lines 303–335) -/

/-- `monte_carlo_asian`: discounted payoff on the arithmetic or geometric
average of each full path; returns the distribution, or its mean. -/
def monte_carlo_asian (Φ : ℝ → ℝ) (S0 K sigma t r mu : ℝ)
    (n_sims n_steps : ℕ) (geometric return_distribution : Bool)
    (option_type : String) (noise : List (List ℝ)) :
    Except String ((List ℝ) ⊕ ℝ) :=
  let paths := GBM_paths S0 sigma t r mu n_sims n_steps noise
  let S := paths.map (asianAvg geometric)
  if option_type = "call" then
    let dp := S.map (fun s => Real.exp (-(r * t)) * max (s - K) 0)
    .ok (if return_distribution then .inl dp else .inr (listMean dp))
  else if option_type = "put" then
    let dp := S.map (fun s => Real.exp (-(r * t)) * max (K - s) 0)
    .ok (if return_distribution then .inl dp else .inr (listMean dp))
  else .error ("Unrecognized option type: " ++ option_type)

/-! ## Self-financing Asian hedge engine (source lines 338–406) -/

/-- The new hedge ratio computed at step `i` of `mc_asian_sf_hedged` (source
lines 391–396), with `Sn` the current price `paths[:, i+1]` and `G` the
already updated running geometric average:
`(1 - (i+1)/n_steps) * (S_eff/S_next) * gao_delta(S_eff, K, sigma_eff, tau, r)`
with `S_eff = G*(S_next/G)**(1-(i+1)/n_steps)`,
`sigma_eff = sigma*sqrt((1-(i+1)/n_steps)/3)` and `tau = t-(i+1)*dt`. -/
def asian_new_delta (Φ : ℝ → ℝ) (K sigma t r dt : ℝ) (n_steps : ℕ)
    (isCall : Bool) (i : ℕ) (Sn G : ℝ) : ℝ :=
  let frac := 1 - ((i : ℝ) + 1) / (n_steps : ℝ)
  let S_eff := G * (Sn / G) ^ frac
  let sigma_eff := sigma * Real.sqrt (frac / 3)
  let tau := t - ((i : ℝ) + 1) * dt
  frac * (S_eff / Sn) * gao_delta_b Φ S_eff K sigma_eff tau r isCall

/-- The rebalancing loop of `mc_asian_sf_hedged`, per path.  The state is
`(Delta, B, G, S_next)`; each step accrues interest on the bond, updates the
running geometric average by the online recursion
`G = exp(((i+1)*log(G) + log(S_next))/(i+2))`, recomputes the hedge ratio via
`asian_new_delta`, and pays the rebalancing cost out of the bond. -/
def asianLoop (Φ : ℝ → ℝ) (K sigma t r dt : ℝ) (n_steps : ℕ) (isCall : Bool) :
    ℕ → ℝ × ℝ × ℝ × ℝ → List ℝ → ℝ × ℝ × ℝ × ℝ
  | _, st, [] => st
  | i, (Delta, B, G, _), S_next :: rest =>
    let B1 := B * Real.exp (r * dt)
    let G1 := Real.exp ((((i : ℝ) + 1) * Real.log G + Real.log S_next) / ((i : ℝ) + 2))
    let new_Delta := asian_new_delta Φ K sigma t r dt n_steps isCall i S_next G1
    asianLoop Φ K sigma t r dt n_steps isCall (i + 1)
      (new_Delta, B1 - (new_Delta - Delta) * S_next, G1, S_next) rest

/-- One path's profit in `mc_asian_sf_hedged`: Asian payoff on the average of
the full path, initial delta from `gao_delta`, running-average state started
at `S0`, terminal value `Delta*S_last + B`, output `(V - payoff)*exp(-r*t)`. -/
def asianHedgePath (Φ : ℝ → ℝ) (S0 K sigma t r premium dt : ℝ) (n_steps : ℕ)
    (geometric isCall : Bool) (row : List ℝ) : ℝ :=
  let S := asianAvg geometric row
  let payoff := if isCall then max (S - K) 0 else max (K - S) 0
  let Delta0 := gao_delta_b Φ S0 K sigma t r isCall
  let B0 := premium - Delta0 * S0
  let fin := asianLoop Φ K sigma t r dt n_steps isCall 0 (Delta0, B0, S0, S0) row.tail
  (fin.1 * fin.2.2.2 + fin.2.1 - payoff) * Real.exp (-(r * t))

/-- `mc_asian_sf_hedged`: the distribution of the market-maker's discounted
self-financing hedging profits for an Asian option. -/
def mc_asian_sf_hedged (Φ : ℝ → ℝ) (S0 K sigma t r mu premium : ℝ)
    (n_sims n_steps : ℕ) (geometric : Bool) (option_type : String)
    (noise : List (List ℝ)) : Except String (List ℝ) :=
  let dt := t / n_steps
  let paths := GBM_paths S0 sigma t r mu n_sims n_steps noise
  if option_type = "call" then
    .ok (paths.map (asianHedgePath Φ S0 K sigma t r premium dt n_steps geometric true))
  else if option_type = "put" then
    .ok (paths.map (asianHedgePath Φ S0 K sigma t r premium dt n_steps geometric false))
  else .error ("Unrecognized option type: " ++ option_type)

/-! ## Specification-side recursion for the European self-financing engine -/

/-- The self-financing recursion exactly as the specification states it, as a
function of the step number: `Delta_0` is the analytic delta at time 0 and
`B_0 = premium - Delta_0*S0`; at each step the bond accrues interest, the new
delta is computed at remaining time `t - (i+1)*dt` on price `S (i+1)`, and
the bond pays the rebalancing cost.  `S` indexes the path's columns. -/
def specDB (Φ : ℝ → ℝ) (S0 K sigma t r premium dt : ℝ) (isCall : Bool)
    (S : ℕ → ℝ) : ℕ → ℝ × ℝ
  | 0 =>
    (bs_delta_b Φ S0 K sigma t r isCall,
     premium - bs_delta_b Φ S0 K sigma t r isCall * S0)
  | i + 1 =>
    let p := specDB Φ S0 K sigma t r premium dt isCall S i
    let B1 := p.2 * Real.exp (r * dt)
    let nD := bs_delta_b Φ (S (i + 1)) K sigma (t - ((i : ℝ) + 1) * dt) r isCall
    (nD, B1 - (nD - p.1) * S (i + 1))

/-- The per-path output the specification prescribes for `mc_eur_sf_hedged`:
with `(Delta_n, B_n)` the state of the recursion `specDB` after `n_steps`
steps and `S_last` the path's last column, the discounted hedging profit
`(Delta_n * S_last + B_n - payoff) * exp(-r*t)`. -/
def specProfit (Φ : ℝ → ℝ) (S0 K sigma t r premium dt : ℝ) (isCall : Bool)
    (n_steps : ℕ) (row : List ℝ) : ℝ :=
  let S : ℕ → ℝ := fun k => row.getD k 0
  let p := specDB Φ S0 K sigma t r premium dt isCall S n_steps
  let payoff := if isCall then max (S n_steps - K) 0 else max (K - S n_steps) 0
  (p.1 * S n_steps + p.2 - payoff) * Real.exp (-(r * t))

/-- The statement of claim C3: for every strictly positive normal-CDF-like
function, at every step `i` of `mc_asian_sf_hedged` with remaining time
`tau = t-(i+1)*dt > 0` and strictly positive `S_next`, `G`, `K`, the hedge
ratio `asian_new_delta` the engine computes equals the conditional
geometric-Asian call delta `gao_asian_conditional_delta`. -/
def C3Statement : Prop :=
  ∀ (Φ : ℝ → ℝ), (∀ x, 0 < Φ x) →
    ∀ (K sigma t r : ℝ) (n_steps i : ℕ) (Sn G : ℝ),
      i < n_steps → 0 < Sn → 0 < G → 0 < K →
      0 < t - ((i : ℝ) + 1) * (t / n_steps) →
      asian_new_delta Φ K sigma t r (t / n_steps) n_steps true i Sn G
        = gao_asian_conditional_delta Φ Sn G K sigma
            (t - ((i : ℝ) + 1) * (t / n_steps)) r t

/-! ## Helper lemmas -/

theorem cumsum_go_length (acc : ℝ) (l : List ℝ) :
    (cumsum_go acc l).length = l.length := by
  induction l generalizing acc with
  | nil => rfl
  | cons x xs ih => simp [cumsum_go, ih]

theorem cumsum_length (l : List ℝ) : (cumsum l).length = l.length :=
  cumsum_go_length 0 l

theorem GBM_row_length (S0 sigma t r mu : ℝ) (n_steps : ℕ) (noiseRow : List ℝ) :
    (GBM_row S0 sigma t r mu n_steps noiseRow).length = noiseRow.length + 1 := by
  simp [GBM_row, cumsum_length]

theorem cumsum_go_getD (l : List ℝ) :
    ∀ (acc : ℝ) (i : ℕ), i < l.length →
      (cumsum_go acc l).getD i 0 = acc + ∑ k ∈ Finset.range (i + 1), l.getD k 0 := by
  induction l with
  | nil => intro acc i h; simp at h
  | cons x xs ih =>
    intro acc i h
    cases i with
    | zero => simp [cumsum_go]
    | succ j =>
      have hj : j < xs.length := by simpa using h
      have := ih (acc + x) j hj
      calc (cumsum_go acc (x :: xs)).getD (j + 1) 0
          = (cumsum_go (acc + x) xs).getD j 0 := by simp [cumsum_go]
        _ = acc + x + ∑ k ∈ Finset.range (j + 1), xs.getD k 0 := this
        _ = acc + ∑ k ∈ Finset.range (j + 2), (x :: xs).getD k 0 := by
              rw [Finset.sum_range_succ' (fun k => (x :: xs).getD k 0) (j + 1)]
              simp [add_comm, add_assoc, add_left_comm]

theorem cumsum_getD (l : List ℝ) (i : ℕ) (h : i < l.length) :
    (cumsum l).getD i 0 = ∑ k ∈ Finset.range (i + 1), l.getD k 0 := by
  simpa using cumsum_go_getD l 0 i h

theorem list_self_eq_range_map (l : List ℝ) :
    l = (List.range l.length).map (fun k => l.getD k 0) := by
  induction l with
  | nil => rfl
  | cons x xs ih =>
    simp only [List.length_cons, List.range_succ_eq_map, List.map_cons,
      List.getD_cons_zero, List.map_map]
    refine congrArg (x :: ·) ?_
    conv_lhs => rw [ih]
    exact List.map_congr_left (fun k _ => rfl)

theorem list_tail_eq_range_map (l : List ℝ) (n : ℕ) (h : l.length = n + 1) :
    l.tail = (List.range n).map (fun k => l.getD (1 + k) 0) := by
  cases l with
  | nil => simp at h
  | cons x xs =>
    have hx : xs.length = n := by simpa using h
    simp only [List.tail_cons]
    conv_lhs => rw [list_self_eq_range_map xs, hx]
    refine List.map_congr_left (fun k _ => ?_)
    rw [add_comm 1 k]
    exact (List.getD_cons_succ).symm

/-! ## Claim C4: shape and content of the GBM path grid -/

/-- Claim C4: for every `n_steps ≥ 1`, `t > 0` and noise matrix of shape
(n_sims, n_steps), `GBM_paths` returns a grid of shape (n_sims, n_steps+1)
whose column 0 is `S0` on every path and whose entry at row `j`, column
`i+1` is `S0 * exp(Σ_{k ≤ i} log_return(noise[j,k]))`. -/
theorem GBM_paths_shape_and_entries (S0 sigma t r mu : ℝ) (n_sims n_steps : ℕ)
    (noise : List (List ℝ)) (hn : 1 ≤ n_steps) (ht : 0 < t)
    (hlen : noise.length = n_sims) (hrows : ∀ nr ∈ noise, nr.length = n_steps) :
    (GBM_paths S0 sigma t r mu n_sims n_steps noise).length = n_sims
    ∧ (∀ row ∈ GBM_paths S0 sigma t r mu n_sims n_steps noise,
        row.length = n_steps + 1)
    ∧ (∀ row ∈ GBM_paths S0 sigma t r mu n_sims n_steps noise,
        row.getD 0 0 = S0)
    ∧ (∀ j i : ℕ, j < n_sims → i < n_steps →
        ((GBM_paths S0 sigma t r mu n_sims n_steps noise).getD j []).getD (i + 1) 0
          = S0 * Real.exp (∑ k ∈ Finset.range (i + 1),
              log_return sigma t r mu n_steps ((noise.getD j []).getD k 0))) := by
  refine ⟨by simp [GBM_paths, hlen], ?_, ?_, ?_⟩
  · intro row hrow
    obtain ⟨nr, hnr, rfl⟩ := List.mem_map.1 hrow
    rw [GBM_row_length, hrows nr hnr]
  · intro row hrow
    obtain ⟨nr, hnr, rfl⟩ := List.mem_map.1 hrow
    simp [GBM_row]
  · intro j i hj hi
    have hj' : j < noise.length := by rw [hlen]; exact hj
    have hrowj : (GBM_paths S0 sigma t r mu n_sims n_steps noise).getD j []
        = GBM_row S0 sigma t r mu n_steps (noise.getD j []) := by
      rw [List.getD_eq_getElem _ _ (by simpa [GBM_paths] using hj'),
        List.getD_eq_getElem _ _ hj']
      simp [GBM_paths]
    rw [hrowj]
    have hnrj : (noise.getD j []).length = n_steps := by
      refine hrows _ ?_
      rw [List.getD_eq_getElem _ _ hj']
      exact List.getElem_mem hj'
    have hi' : i < ((noise.getD j []).map (log_return sigma t r mu n_steps)).length := by
      rw [List.length_map, hnrj]; exact hi
    have hcs : i < (cumsum ((noise.getD j []).map (log_return sigma t r mu n_steps))).length := by
      simpa [cumsum_length] using hi'
    simp only [GBM_row, List.getD_cons_succ]
    rw [List.getD_eq_getElem _ _ (by simpa using hcs), List.getElem_map,
      ← List.getD_eq_getElem _ 0 hcs, cumsum_getD _ _ hi']
    refine congrArg (fun z => S0 * Real.exp z) (Finset.sum_congr rfl ?_)
    intro k hk
    have hk' : k < (noise.getD j []).length := by
      have := Finset.mem_range.1 hk
      omega
    rw [List.getD_eq_getElem _ _ (by simpa using hk'), List.getElem_map,
      ← List.getD_eq_getElem _ 0 hk']

/-- Witness for claim C4 at a concrete 1×1 noise matrix. -/
theorem GBM_paths_shape_and_entries_witness :
    (1 ≤ 1 ∧ (0:ℝ) < 1) ∧
    ((GBM_paths 100 (1/5) 1 0 0 1 1 [[0]]).length = 1
    ∧ (∀ row ∈ GBM_paths 100 (1/5) 1 0 0 1 1 [[0]], row.length = 1 + 1)
    ∧ (∀ row ∈ GBM_paths 100 (1/5) 1 0 0 1 1 [[0]], row.getD 0 0 = 100)
    ∧ (∀ j i : ℕ, j < 1 → i < 1 →
        ((GBM_paths 100 (1/5) 1 0 0 1 1 [[0]]).getD j []).getD (i + 1) 0
          = 100 * Real.exp (∑ k ∈ Finset.range (i + 1),
              log_return (1/5) 1 0 0 1 ((([[(0:ℝ)]].getD j []).getD k 0))))) :=
  ⟨⟨le_refl 1, one_pos⟩,
    GBM_paths_shape_and_entries 100 (1/5) 1 0 0 1 1 [[0]]
      (le_refl 1) one_pos (by simp) (by simp)⟩

/-! ## Claim C5: strict positivity of the grid -/

/-- Claim C5: for `S0 > 0`, every entry of the grid returned by `GBM_paths`
is strictly positive, whatever the noise. -/
theorem GBM_paths_pos (S0 sigma t r mu : ℝ) (n_sims n_steps : ℕ)
    (noise : List (List ℝ)) (hS0 : 0 < S0) :
    ∀ row ∈ GBM_paths S0 sigma t r mu n_sims n_steps noise, ∀ x ∈ row, 0 < x := by
  intro row hrow x hx
  obtain ⟨nr, _, rfl⟩ := List.mem_map.1 hrow
  rcases List.mem_cons.1 hx with h0 | hmem
  · exact h0 ▸ hS0
  · obtain ⟨c, _, rfl⟩ := List.mem_map.1 hmem
    exact mul_pos hS0 (Real.exp_pos c)

/-- Witness for claim C5 at a concrete positive spot and 1×1 noise matrix. -/
theorem GBM_paths_pos_witness :
    (0:ℝ) < 100 ∧
    ∀ row ∈ GBM_paths 100 (1/5) 1 0 0 1 1 [[0]], ∀ x ∈ row, 0 < x :=
  ⟨by norm_num, GBM_paths_pos 100 (1/5) 1 0 0 1 1 [[0]] (by norm_num)⟩

/-! ## Claim C7: GBM_paths performs no parameter validation -/

/-- Counterexample to claim C7: at `sigma = -1 < 0` (an invalid parameter per
the claim), `GBM_paths` does not fail: it returns an ordinary 1×2 grid. -/
theorem GBM_paths_no_validation_counterexample :
    ((-1:ℝ) < 0) ∧
    (GBM_paths 100 (-1) 1 0 0 1 1 [[0]]).map List.length = [2] := by
  refine ⟨by norm_num, ?_⟩
  simp [GBM_paths, GBM_row_length]

/-- Claim C7 as amended: for every `n_steps ≥ 1`, `GBM_paths` validates
none of its real parameters and no simulation count: for all `sigma`, `t`,
`r`, `mu` — including `sigma < 0` and `t ≤ 0` — and any `n_sims` (including
`n_sims < 1`, an empty noise matrix), it returns a grid with one row per
noise row, each one entry longer than the corresponding noise row, raising
no error.  (`n_steps = 0` is outside this statement: there the source fails,
but with a `ZeroDivisionError` at `t/n_steps`, not the claimed
`InvalidParameter`; the model's total division does not represent it.) -/
theorem GBM_paths_no_validation (S0 sigma t r mu : ℝ) (n_sims n_steps : ℕ)
    (noise : List (List ℝ)) (hn : 1 ≤ n_steps) :
    (GBM_paths S0 sigma t r mu n_sims n_steps noise).map List.length
      = noise.map (fun nr => nr.length + 1) := by
  simp only [GBM_paths, List.map_map]
  exact List.map_congr_left (fun nr _ => GBM_row_length S0 sigma t r mu n_steps nr)

/-- Witness for the amended claim C7 at `sigma = -1 < 0`, `t = -1 ≤ 0` and
`n_sims = 0 < 1`, with one step. -/
theorem GBM_paths_no_validation_witness :
    1 ≤ 1 ∧
    (GBM_paths 100 (-1) (-1) 0 0 0 1 [[0]]).map List.length
      = [[(0:ℝ)]].map (fun nr => nr.length + 1) :=
  ⟨le_refl 1, GBM_paths_no_validation 100 (-1) (-1) 0 0 0 1 [[0]] (le_refl 1)⟩

/-! ## Claim C6: invalid option types fail with the naming error -/

/-- Claim C6: for any option type other than "call" and "put", each of the
eight pricers and engines fails with the error naming the offending value,
returning no partial result. -/
theorem invalid_option_type_fails (Φ : ℝ → ℝ) (S0 K sigma t r mu premium : ℝ)
    (n_sims n_steps n_hedges : ℕ) (rd geometric : Bool)
    (noise : List (List ℝ)) (ot : String)
    (hc : ot ≠ "call") (hp : ot ≠ "put") :
    bs_price Φ S0 K sigma t r ot = .error ("Unrecognized option type: " ++ ot)
    ∧ bs_delta Φ S0 K sigma t r ot = .error ("Unrecognized option type: " ++ ot)
    ∧ gao_price Φ S0 K sigma t r ot = .error ("Unrecognized option type: " ++ ot)
    ∧ gao_delta Φ S0 K sigma t r ot = .error ("Unrecognized option type: " ++ ot)
    ∧ monte_carlo_european Φ S0 K sigma t r mu n_sims n_hedges rd ot noise
        = .error ("Unrecognized option type: " ++ ot)
    ∧ mc_eur_sf_hedged Φ S0 K sigma t r mu premium n_sims n_steps ot noise
        = .error ("Unrecognized option type: " ++ ot)
    ∧ monte_carlo_asian Φ S0 K sigma t r mu n_sims n_steps geometric rd ot noise
        = .error ("Unrecognized option type: " ++ ot)
    ∧ mc_asian_sf_hedged Φ S0 K sigma t r mu premium n_sims n_steps geometric ot noise
        = .error ("Unrecognized option type: " ++ ot) := by
  refine ⟨?_, ?_, ?_, ?_, ?_, ?_, ?_, ?_⟩
  · simp [bs_price, hc, hp]
  · simp [bs_delta, hc, hp]
  · simp [gao_price, hc, hp]
  · simp [gao_delta, hc, hp]
  · by_cases h0 : n_hedges = 0 <;> simp [monte_carlo_european, h0, hc, hp]
  · simp [mc_eur_sf_hedged, hc, hp]
  · simp [monte_carlo_asian, hc, hp]
  · simp [mc_asian_sf_hedged, hc, hp]

/-- Witness for claim C6 at the option type "straddle". -/
theorem invalid_option_type_fails_witness :
    bs_price (fun x => x) 1 1 1 1 1 "straddle"
        = .error ("Unrecognized option type: " ++ "straddle")
    ∧ bs_delta (fun x => x) 1 1 1 1 1 "straddle"
        = .error ("Unrecognized option type: " ++ "straddle")
    ∧ gao_price (fun x => x) 1 1 1 1 1 "straddle"
        = .error ("Unrecognized option type: " ++ "straddle")
    ∧ gao_delta (fun x => x) 1 1 1 1 1 "straddle"
        = .error ("Unrecognized option type: " ++ "straddle")
    ∧ monte_carlo_european (fun x => x) 1 1 1 1 1 1 1 1 true "straddle" [[1]]
        = .error ("Unrecognized option type: " ++ "straddle")
    ∧ mc_eur_sf_hedged (fun x => x) 1 1 1 1 1 1 1 1 1 "straddle" [[1]]
        = .error ("Unrecognized option type: " ++ "straddle")
    ∧ monte_carlo_asian (fun x => x) 1 1 1 1 1 1 1 1 true true "straddle" [[1]]
        = .error ("Unrecognized option type: " ++ "straddle")
    ∧ mc_asian_sf_hedged (fun x => x) 1 1 1 1 1 1 1 1 1 true "straddle" [[1]]
        = .error ("Unrecognized option type: " ++ "straddle") :=
  invalid_option_type_fails (fun x => x) 1 1 1 1 1 1 1 1 1 1 true true [[1]]
    "straddle" (by decide) (by decide)

/-! ## Claim C9: output contract of monte_carlo_european -/

/-- Claim C9: with `n_hedges = 0`, `monte_carlo_european` returns the
unhedged discounted terminal payoff of a single-step path,
`exp(-r*t) * max(S_T - K, 0)` for a call and `exp(-r*t) * max(K - S_T, 0)`
for a put, with `S_T = S0 * exp(log_return(z))`; in every mode the returned
distribution has length `n_sims`, and with `return_distribution = false` the
function returns the pair `(mean, std/sqrt(n_sims))` of that distribution. -/
theorem monte_carlo_european_output (Φ : ℝ → ℝ) (S0 K sigma t r mu : ℝ)
    (n_sims n_hedges : ℕ) (ot : String) (noise1 noise : List (List ℝ))
    (hot : ot = "call" ∨ ot = "put")
    (h1 : noise1.length = n_sims) (hr1 : ∀ nr ∈ noise1, nr.length = 1)
    (hlen : noise.length = n_sims) :
    (monte_carlo_european Φ S0 K sigma t r mu n_sims 0 true ot noise1
      = .ok (.inl (noise1.map (fun nr =>
          Real.exp (-(r * t)) * (if ot = "call"
            then max (S0 * Real.exp (log_return sigma t r mu 1 (nr.getD 0 0)) - K) 0
            else max (K - S0 * Real.exp (log_return sigma t r mu 1 (nr.getD 0 0))) 0)))))
    ∧ (∀ d, monte_carlo_european Φ S0 K sigma t r mu n_sims n_hedges true ot noise
          = .ok (.inl d) →
        d.length = n_sims)
    ∧ (∀ d, monte_carlo_european Φ S0 K sigma t r mu n_sims n_hedges true ot noise
          = .ok (.inl d) →
        monte_carlo_european Φ S0 K sigma t r mu n_sims n_hedges false ot noise
          = .ok (.inr (listMean d, listStd d / Real.sqrt n_sims))) := by
  refine ⟨?_, ?_, ?_⟩
  · rcases hot with rfl | rfl <;>
      · simp only [monte_carlo_european, GBM_paths, List.map_map, String.reduceEq, reduceIte]
        simp only [Except.ok.injEq, Sum.inl.injEq, List.map_inj_left]
        intro nr hnr
        obtain ⟨z, rfl⟩ := List.length_eq_one.1 (hr1 nr hnr)
        simp [GBM_row, cumsum, cumsum_go]
  · intro d hd
    rcases hot with rfl | rfl <;> by_cases h0 : n_hedges = 0 <;>
        simp only [monte_carlo_european, GBM_paths, h0, String.reduceEq, reduceIte] at hd <;>
      · simp at hd
        rw [← hd]
        simp [hlen]
  · intro d hd
    rcases hot with rfl | rfl <;> by_cases h0 : n_hedges = 0 <;>
        simp only [monte_carlo_european, GBM_paths, h0, String.reduceEq, reduceIte] at hd <;>
      · simp at hd
        simp only [monte_carlo_european, GBM_paths, h0, String.reduceEq, reduceIte]
        simp [← hd]

/-- Witness for claim C9 at concrete 1×1 noise matrices. -/
theorem monte_carlo_european_output_witness :
    ("call" = "call" ∨ "call" = "put") ∧
    ((monte_carlo_european (fun x => x) 100 90 (1/5) 1 (1/20) 0 1 0 true "call" [[0]]
      = .ok (.inl ([[(0:ℝ)]].map (fun nr =>
          Real.exp (-((1/20 : ℝ) * 1)) * (if "call" = "call"
            then max (100 * Real.exp (log_return (1/5) 1 (1/20) 0 1 (nr.getD 0 0)) - 90) 0
            else max (90 - 100 * Real.exp (log_return (1/5) 1 (1/20) 0 1 (nr.getD 0 0))) 0)))))
    ∧ (∀ d, monte_carlo_european (fun x => x) 100 90 (1/5) 1 (1/20) 0 1 2 true "call" [[1]]
          = .ok (.inl d) →
        d.length = 1)
    ∧ (∀ d, monte_carlo_european (fun x => x) 100 90 (1/5) 1 (1/20) 0 1 2 true "call" [[1]]
          = .ok (.inl d) →
        monte_carlo_european (fun x => x) 100 90 (1/5) 1 (1/20) 0 1 2 false "call" [[1]]
          = .ok (.inr (listMean d, listStd d / Real.sqrt ((1:ℕ) : ℝ))))) :=
  ⟨Or.inl rfl,
    monte_carlo_european_output (fun x => x) 100 90 (1/5) 1 (1/20) 0 1 2 "call"
      [[0]] [[1]] (Or.inl rfl) rfl (by simp) rfl⟩

/-! ## Claim C1: the European self-financing engine follows the recursion -/

theorem sfLoop_eq_specDB (Φ : ℝ → ℝ) (S0 K sigma t r premium dt : ℝ)
    (isCall : Bool) (S : ℕ → ℝ) :
    ∀ (m i : ℕ) (X : ℝ),
      sfLoop Φ K sigma t r dt isCall i
          ((specDB Φ S0 K sigma t r premium dt isCall S i).1,
           (specDB Φ S0 K sigma t r premium dt isCall S i).2, X)
          ((List.range m).map (fun k => S (i + 1 + k)))
        = ((specDB Φ S0 K sigma t r premium dt isCall S (i + m)).1,
           (specDB Φ S0 K sigma t r premium dt isCall S (i + m)).2,
           if m = 0 then X else S (i + m)) := by
  intro m
  induction m with
  | zero => intro i X; simp [sfLoop]
  | succ m ih =>
    intro i X
    have hrange : (List.range (m + 1)).map (fun k => S (i + 1 + k))
        = S (i + 1) :: (List.range m).map (fun k => S (i + 1 + 1 + k)) := by
      rw [List.range_succ_eq_map, List.map_cons, List.map_map]
      exact congrArg _ (List.map_congr_left (fun k _ => congrArg S (by omega)))
    rw [hrange]
    simp only [sfLoop]
    have h1 : bs_delta_b Φ (S (i + 1)) K sigma (t - ((i : ℝ) + 1) * dt) r isCall
        = (specDB Φ S0 K sigma t r premium dt isCall S (i + 1)).1 := by
      simp [specDB]
    have h2 : (specDB Φ S0 K sigma t r premium dt isCall S i).2 * Real.exp (r * dt) -
          ((specDB Φ S0 K sigma t r premium dt isCall S (i + 1)).1 -
            (specDB Φ S0 K sigma t r premium dt isCall S i).1) * S (i + 1)
        = (specDB Φ S0 K sigma t r premium dt isCall S (i + 1)).2 := by
      simp [specDB]
    rw [h1, h2, ih (i + 1) (S (i + 1))]
    have hidx : i + 1 + m = i + (m + 1) := by omega
    rw [hidx]
    by_cases hm : m = 0
    · subst hm; norm_num
    · simp [hm]

/-- The rebalancing loop of the European engine, started from the engine's
initial state on a path of length `n+1`, ends in the state of the
specification recursion after `n` steps, with `S_last` the last column. -/
theorem sfLoop_row (Φ : ℝ → ℝ) (S0 K sigma t r premium dt : ℝ)
    (isCall : Bool) (n : ℕ) (row : List ℝ) (hn : 1 ≤ n)
    (h : row.length = n + 1) :
    sfLoop Φ K sigma t r dt isCall 0
        (bs_delta_b Φ S0 K sigma t r isCall,
         premium - bs_delta_b Φ S0 K sigma t r isCall * S0, S0) row.tail
      = ((specDB Φ S0 K sigma t r premium dt isCall (fun k => row.getD k 0) n).1,
         (specDB Φ S0 K sigma t r premium dt isCall (fun k => row.getD k 0) n).2,
         row.getD n 0) := by
  have htail : row.tail = (List.range n).map (fun k => row.getD (0 + 1 + k) 0) := by
    rw [list_tail_eq_range_map row n h]
  have ha : bs_delta_b Φ S0 K sigma t r isCall
      = (specDB Φ S0 K sigma t r premium dt isCall (fun k => row.getD k 0) 0).1 := by
    simp [specDB]
  have hb : premium -
        (specDB Φ S0 K sigma t r premium dt isCall (fun k => row.getD k 0) 0).1 * S0
      = (specDB Φ S0 K sigma t r premium dt isCall (fun k => row.getD k 0) 0).2 := by
    simp [specDB]
  have hloop := sfLoop_eq_specDB Φ S0 K sigma t r premium dt isCall
    (fun k => row.getD k 0) n 0 S0
  rw [Nat.zero_add] at hloop
  have hn0 : ¬ (n = 0) := by omega
  rw [htail, ha, hb, hloop]
  simp [hn0]

/-- Each path's profit in `mc_eur_sf_hedged` equals the profit of the
specification's recursion. -/
theorem eurHedgePath_eq_specProfit (Φ : ℝ → ℝ) (S0 K sigma t r premium dt : ℝ)
    (isCall : Bool) (n : ℕ) (row : List ℝ) (hn : 1 ≤ n)
    (h : row.length = n + 1) :
    eurHedgePath Φ S0 K sigma t r premium dt isCall row
      = specProfit Φ S0 K sigma t r premium dt isCall n row := by
  simp only [eurHedgePath, specProfit]
  rw [sfLoop_row Φ S0 K sigma t r premium dt isCall n row hn h, h]
  simp

/-- Claim C1: for every `n_steps ≥ 1` and option type in call, put,
`mc_eur_sf_hedged` follows exactly the self-financing recursion `specDB`
(initial state `Delta_0 = bs_delta(S0,K,sigma,t,r)`,
`B_0 = premium - Delta_0*S0`; per step interest accrual, delta recomputation
at `tau = t-(i+1)*dt`, bond adjustment by the rebalancing cost), the
per-path output being `(Delta*S_last + B - payoff) * exp(-r*t)`. -/
theorem mc_eur_sf_hedged_recursion (Φ : ℝ → ℝ) (S0 K sigma t r mu premium : ℝ)
    (n_sims n_steps : ℕ) (noise : List (List ℝ)) (hn : 1 ≤ n_steps)
    (hshape : ∀ nr ∈ noise, nr.length = n_steps) :
    mc_eur_sf_hedged Φ S0 K sigma t r mu premium n_sims n_steps "call" noise
      = .ok ((GBM_paths S0 sigma t r mu n_sims n_steps noise).map
          (specProfit Φ S0 K sigma t r premium (t / n_steps) true n_steps))
    ∧ mc_eur_sf_hedged Φ S0 K sigma t r mu premium n_sims n_steps "put" noise
      = .ok ((GBM_paths S0 sigma t r mu n_sims n_steps noise).map
          (specProfit Φ S0 K sigma t r premium (t / n_steps) false n_steps)) := by
  constructor <;>
    · simp only [mc_eur_sf_hedged, String.reduceEq, reduceIte, Except.ok.injEq]
      refine List.map_congr_left (fun row hrow => ?_)
      obtain ⟨nr, hnr, rfl⟩ := List.mem_map.1 hrow
      refine eurHedgePath_eq_specProfit Φ S0 K sigma t r premium (t / n_steps) _
        n_steps _ hn ?_
      rw [GBM_row_length, hshape nr hnr]

/-- Witness for claim C1 at a concrete 1×1 noise matrix. -/
theorem mc_eur_sf_hedged_recursion_witness :
    1 ≤ 1 ∧
    (mc_eur_sf_hedged (fun x => x) 100 95 (1/5) 1 (1/20) 0 10 1 1 "call" [[0]]
      = .ok ((GBM_paths 100 (1/5) 1 (1/20) 0 1 1 [[0]]).map
          (specProfit (fun x => x) 100 95 (1/5) 1 (1/20) 10 ((1:ℝ) / (1:ℕ)) true 1))
    ∧ mc_eur_sf_hedged (fun x => x) 100 95 (1/5) 1 (1/20) 0 10 1 1 "put" [[0]]
      = .ok ((GBM_paths 100 (1/5) 1 (1/20) 0 1 1 [[0]]).map
          (specProfit (fun x => x) 100 95 (1/5) 1 (1/20) 10 ((1:ℝ) / (1:ℕ)) false 1))) :=
  ⟨le_refl 1,
    mc_eur_sf_hedged_recursion (fun x => x) 100 95 (1/5) 1 (1/20) 0 10 1 1 [[0]]
      (le_refl 1) (by simp)⟩

/-! ## Claim C10: the last rebalancing step divides by sigma*sqrt(0) -/

theorem asianLoop_last_delta (Φ : ℝ → ℝ) (K sigma t r dt : ℝ) (n : ℕ)
    (isCall : Bool) :
    ∀ (l : List ℝ) (hl : l ≠ []) (i : ℕ) (st : ℝ × ℝ × ℝ × ℝ),
      ∃ G', (asianLoop Φ K sigma t r dt n isCall i st l).1
        = asian_new_delta Φ K sigma t r dt n isCall (i + l.length - 1)
            (l.getLast hl) G' := by
  intro l
  induction l with
  | nil => intro hl; exact absurd rfl hl
  | cons Sn rest ih =>
    intro hl i st
    obtain ⟨D, B, G, X⟩ := st
    by_cases hrest : rest = []
    · subst hrest
      refine ⟨Real.exp ((((i : ℝ) + 1) * Real.log G + Real.log Sn) / ((i : ℝ) + 2)), ?_⟩
      simp [asianLoop]
    · simp only [asianLoop]
      have hidx : i + (Sn :: rest).length - 1 = i + 1 + rest.length - 1 := by
        simp only [List.length_cons]; omega
      rw [hidx]
      simp only [List.getLast_cons hrest]
      exact ih hrest (i + 1) _

/-- Claim C10: at the final loop iteration `i = n_steps - 1` of both
self-financing engines the remaining time `tau = t - (i+1)*dt` is exactly 0,
so the final delta recomputation calls `bs_delta` (respectively `gao_delta`)
with time-to-expiry 0, where the `d1` of either formula divides by
`sigma * sqrt(0) = 0`, with no guard in the code. -/
theorem final_step_divides_by_zero (Φ : ℝ → ℝ) (S0 K sigma t r premium : ℝ)
    (isCall : Bool) (n : ℕ) (row : List ℝ) (hn : 1 ≤ n)
    (h : row.length = n + 1) :
    t - (((n - 1 : ℕ) : ℝ) + 1) * (t / n) = 0
    ∧ (sfLoop Φ K sigma t r (t / n) isCall 0
          (bs_delta_b Φ S0 K sigma t r isCall,
           premium - bs_delta_b Φ S0 K sigma t r isCall * S0, S0) row.tail).1
        = bs_delta_b Φ (row.getD n 0) K sigma 0 r isCall
    ∧ (∀ S K' : ℝ, bs_d1 S K' sigma 0 r
        = (Real.log (S / K') + (r + (1/2) * sigma^2) * 0) / (sigma * Real.sqrt 0))
    ∧ sigma * Real.sqrt 0 = 0
    ∧ (∃ G', (asianLoop Φ K sigma t r (t / n) n isCall 0
          (gao_delta_b Φ S0 K sigma t r isCall,
           premium - gao_delta_b Φ S0 K sigma t r isCall * S0, S0, S0) row.tail).1
        = (1 - (((n - 1 : ℕ) : ℝ) + 1) / n) *
            ((G' * (row.getD n 0 / G') ^ (1 - (((n - 1 : ℕ) : ℝ) + 1) / n)) / row.getD n 0) *
            gao_delta_b Φ (G' * (row.getD n 0 / G') ^ (1 - (((n - 1 : ℕ) : ℝ) + 1) / n)) K
              (sigma * Real.sqrt ((1 - (((n - 1 : ℕ) : ℝ) + 1) / n) / 3)) 0 r isCall)
    ∧ (∀ S K' : ℝ, gao_d1 S K' sigma 0 r
        = Real.sqrt 3 * (Real.log (S / K') + (gao_b sigma r + sigma^2 / 6) * 0) /
            (sigma * Real.sqrt 0)) := by
  have hne : ((n : ℝ)) ≠ 0 := by
    have : 0 < n := by omega
    exact_mod_cast this.ne'
  have hcast : (((n - 1 : ℕ) : ℝ) + 1) = (n : ℝ) := by
    rw [Nat.cast_sub hn]
    push_cast
    ring
  have htau : t - (((n - 1 : ℕ) : ℝ) + 1) * (t / n) = 0 := by
    rw [hcast]
    field_simp
  refine ⟨htau, ?_, fun S K' => rfl, by simp, ?_, fun S K' => rfl⟩
  · rw [sfLoop_row Φ S0 K sigma t r premium (t / n) isCall n row hn h]
    obtain ⟨m, rfl⟩ : ∃ m, n = m + 1 := ⟨n - 1, by omega⟩
    have htau' : t - ((m : ℝ) + 1) * (t / (m + 1 : ℕ)) = 0 := by
      have : (((m + 1 - 1 : ℕ) : ℝ) + 1) = ((m : ℝ) + 1) := by push_cast; ring
      rw [← this]
      exact htau
    simp only [specDB, htau']
  · have htl : row.tail ≠ [] := by
      have : row.tail.length = n := by simp [h]
      intro hcon
      rw [hcon] at this
      simp at this
      omega
    obtain ⟨G', hG'⟩ := asianLoop_last_delta Φ K sigma t r (t / n) n isCall
      row.tail htl 0
      (gao_delta_b Φ S0 K sigma t r isCall,
       premium - gao_delta_b Φ S0 K sigma t r isCall * S0, S0, S0)
    refine ⟨G', ?_⟩
    rw [hG']
    have hlen : row.tail.length = n := by simp [h]
    have hlast : row.tail.getLast htl = row.getD n 0 := by
      rw [List.getLast_eq_getElem]
      rw [List.getElem_tail]
      rw [List.getD_eq_getElem _ 0 (by omega : n < row.length)]
      congr 1
      omega
    have hidx : 0 + row.tail.length - 1 = n - 1 := by omega
    rw [hidx, hlast]
    simp only [asian_new_delta, htau]

/-- Witness for claim C10 at `n_steps = 1` on the path `[1, 1]`. -/
theorem final_step_divides_by_zero_witness :
    ((1 ≤ 1) ∧ [(1:ℝ), 1].length = 1 + 1) ∧
    ((1:ℝ) - (((1 - 1 : ℕ) : ℝ) + 1) * (1 / ((1:ℕ) : ℝ)) = 0
    ∧ (sfLoop (fun x => x) 1 1 1 0 (1 / ((1:ℕ) : ℝ)) true 0
          (bs_delta_b (fun x => x) 1 1 1 1 0 true,
           0 - bs_delta_b (fun x => x) 1 1 1 1 0 true * 1, 1) [(1:ℝ), 1].tail).1
        = bs_delta_b (fun x => x) ([(1:ℝ), 1].getD 1 0) 1 1 0 0 true
    ∧ (∀ S K' : ℝ, bs_d1 S K' 1 0 0
        = (Real.log (S / K') + (0 + (1/2) * 1^2) * 0) / (1 * Real.sqrt 0))
    ∧ (1:ℝ) * Real.sqrt 0 = 0
    ∧ (∃ G', (asianLoop (fun x => x) 1 1 1 0 (1 / ((1:ℕ) : ℝ)) 1 true 0
          (gao_delta_b (fun x => x) 1 1 1 1 0 true,
           0 - gao_delta_b (fun x => x) 1 1 1 1 0 true * 1, 1, 1) [(1:ℝ), 1].tail).1
        = (1 - (((1 - 1 : ℕ) : ℝ) + 1) / ((1:ℕ) : ℝ)) *
            ((G' * ([(1:ℝ), 1].getD 1 0 / G') ^ (1 - (((1 - 1 : ℕ) : ℝ) + 1) / ((1:ℕ) : ℝ))) /
              [(1:ℝ), 1].getD 1 0) *
            gao_delta_b (fun x => x)
              (G' * ([(1:ℝ), 1].getD 1 0 / G') ^ (1 - (((1 - 1 : ℕ) : ℝ) + 1) / ((1:ℕ) : ℝ))) 1
              (1 * Real.sqrt ((1 - (((1 - 1 : ℕ) : ℝ) + 1) / ((1:ℕ) : ℝ)) / 3)) 0 0 true)
    ∧ (∀ S K' : ℝ, gao_d1 S K' 1 0 0
        = Real.sqrt 3 * (Real.log (S / K') + (gao_b 1 0 + 1^2 / 6) * 0) /
            (1 * Real.sqrt 0))) :=
  ⟨⟨le_refl 1, rfl⟩,
    final_step_divides_by_zero (fun x => x) 1 1 1 1 0 0 true 1 [(1:ℝ), 1]
      (le_refl 1) rfl⟩

/-! ## Claim C2: the running geometric average is the path's geometric mean -/

theorem log_list_prod : ∀ (l : List ℝ), (∀ x ∈ l, 0 < x) →
    Real.log l.prod = (l.map Real.log).sum := by
  intro l
  induction l with
  | nil => intro _; simp
  | cons x xs ih =>
    intro h
    have hx : x ≠ 0 := (h x (by simp)).ne'
    have hxs : xs.prod ≠ 0 := (List.prod_pos (fun y hy => h y (by simp [hy]))).ne'
    simp [Real.log_mul hx hxs, ih (fun y hy => h y (by simp [hy]))]

/-- The running geometric average after consuming the (nonempty) remaining
columns `l` from counter `i` and average `G` is
`exp(((i+1)*log G + Σ log l) / (i+1+|l|))`, whatever the rest of the state. -/
theorem asianLoop_G (Φ : ℝ → ℝ) (K sigma t r dt : ℝ) (n : ℕ) (isCall : Bool) :
    ∀ (l : List ℝ), l ≠ [] → ∀ (i : ℕ) (st : ℝ × ℝ × ℝ × ℝ),
      (asianLoop Φ K sigma t r dt n isCall i st l).2.2.1
        = Real.exp ((((i : ℝ) + 1) * Real.log st.2.2.1 + (l.map Real.log).sum) /
            ((i : ℝ) + 1 + l.length)) := by
  intro l
  induction l with
  | nil => intro h; exact absurd rfl h
  | cons Sn rest ih =>
    intro _ i st
    obtain ⟨D, B, G, X⟩ := st
    by_cases hrest : rest = []
    · subst hrest
      simp only [asianLoop, List.map_cons, List.map_nil, List.sum_cons,
        List.sum_nil, List.length_cons, List.length_nil, add_zero]
      congr 1
      push_cast
      ring
    · simp only [asianLoop]
      rw [ih hrest (i + 1) _]
      simp only [Real.log_exp, List.length_cons, List.map_cons, List.sum_cons]
      have hi2 : ((i : ℝ) + 2) ≠ 0 := by positivity
      congr 1
      push_cast
      field_simp
      ring

/-- Claim C2: in `mc_asian_sf_hedged` the running geometric average starts at
`S0` and follows `G = exp(((i+1)*log G + log S_next)/(i+2))`; for a path of
strictly positive prices, after the final step it equals the geometric mean
of all `n_steps+1` path entries — the quantity `exp(mean(log path))` that the
engine also uses for the geometric terminal payoff (`asianAvg true`). -/
theorem asian_running_G_is_gmean (Φ : ℝ → ℝ) (K sigma t r dt : ℝ)
    (n_steps : ℕ) (isCall : Bool) (D0 B0 S0 : ℝ) (rest : List ℝ)
    (hrest : rest.length = n_steps) (hn : 1 ≤ n_steps)
    (hS0 : 0 < S0) (hpos : ∀ x ∈ rest, 0 < x) :
    (asianLoop Φ K sigma t r dt n_steps isCall 0 (D0, B0, S0, S0) rest).2.2.1
      = asianAvg true (S0 :: rest)
    ∧ (asianLoop Φ K sigma t r dt n_steps isCall 0 (D0, B0, S0, S0) rest).2.2.1
      = (S0 :: rest).prod ^ ((1 : ℝ) / ((n_steps : ℝ) + 1)) := by
  have hne : rest ≠ [] := by
    intro hcon
    rw [hcon] at hrest
    simp at hrest
    omega
  have hG := asianLoop_G Φ K sigma t r dt n_steps isCall rest hne 0 (D0, B0, S0, S0)
  have hmean : (asianLoop Φ K sigma t r dt n_steps isCall 0 (D0, B0, S0, S0) rest).2.2.1
      = asianAvg true (S0 :: rest) := by
    rw [hG]
    simp only [asianAvg, if_pos rfl, listMean, List.map_cons, List.sum_cons,
      List.length_map, List.length_cons]
    congr 1
    push_cast
    ring
  refine ⟨hmean, ?_⟩
  rw [hmean]
  have hprod : 0 < (S0 :: rest).prod :=
    List.prod_pos (by
      intro y hy
      rcases List.mem_cons.1 hy with h0 | hmem
      · exact h0 ▸ hS0
      · exact hpos y hmem)
  rw [Real.rpow_def_of_pos hprod,
    log_list_prod (S0 :: rest) (by
      intro y hy
      rcases List.mem_cons.1 hy with h0 | hmem
      · exact h0 ▸ hS0
      · exact hpos y hmem)]
  simp only [asianAvg, if_pos rfl, listMean, List.length_map, List.length_cons]
  rw [hrest]
  push_cast
  ring_nf

/-- Witness for claim C2 on the positive path `[1, 1]` with one step. -/
theorem asian_running_G_is_gmean_witness :
    ([(1:ℝ)].length = 1 ∧ 1 ≤ 1 ∧ (0:ℝ) < 1 ∧ ∀ x ∈ [(1:ℝ)], 0 < x) ∧
    ((asianLoop (fun x => x) 1 1 1 0 1 1 true 0 (0, 0, 1, 1) [(1:ℝ)]).2.2.1
      = asianAvg true ((1:ℝ) :: [(1:ℝ)])
    ∧ (asianLoop (fun x => x) 1 1 1 0 1 1 true 0 (0, 0, 1, 1) [(1:ℝ)]).2.2.1
      = ((1:ℝ) :: [(1:ℝ)]).prod ^ ((1 : ℝ) / (((1:ℕ) : ℝ) + 1))) :=
  ⟨⟨rfl, le_refl 1, one_pos, by norm_num⟩,
    asian_running_G_is_gmean (fun x => x) 1 1 1 0 1 1 true 0 0 1 [(1:ℝ)]
      rfl (le_refl 1) one_pos (by norm_num)⟩

/-! ## Claim C3: the engine's hedge ratio vs the conditional Asian delta -/

/-- Counterexample to claim C3: the hedge ratio the engine computes is NOT
the conditional geometric-Asian delta.  At `K = G = S_next = 1`, `sigma = 1`,
`r = 0`, `t = 6`, `n_steps = 2`, `i = 0` (so `tau = 3 > 0`), the two formulas
differ by the factor `exp(1/12)` for every strictly positive CDF. -/
theorem asian_new_delta_ne_conditional_delta : C3Statement = False := by
  refine eq_false ?_
  intro h
  have htau : (0:ℝ) < 6 - (((0:ℕ) : ℝ) + 1) * (6 / ((2:ℕ) : ℝ)) := by norm_num
  have heq := h (fun _ => 1) (fun _ => one_pos) 1 1 6 0 2 0 1 1
    (by norm_num) one_pos one_pos one_pos htau
  simp only [asian_new_delta, gao_asian_conditional_delta, gao_delta_b, gao_b,
    gao_d1] at heq
  norm_num [Real.one_rpow] at heq
  have hlt : Real.exp (-(1/24)) < Real.exp (1/24) :=
    Real.exp_lt_exp.mpr (by norm_num)
  linarith [heq, hlt]

/-- Claim C3 as amended: with `tau = t-(i+1)*(t/n_steps)`, the hedge ratio the
engine computes at step `i` equals the chain-rule scaling
`(tau/t) * (S_eff/S_next) * gao_delta(S_eff, K, sigma*sqrt(tau/(3t)), tau, r)`
with `S_eff = G*(S_next/G)^(tau/t)` — a fresh geometric-Asian delta at
effective parameters, which is not `gao_asian_conditional_delta` (see the
counterexample). -/
theorem asian_new_delta_chain_rule (Φ : ℝ → ℝ) (K sigma t r : ℝ)
    (isCall : Bool) (n_steps i : ℕ) (Sn G : ℝ) (ht : 0 < t) :
    asian_new_delta Φ K sigma t r (t / n_steps) n_steps isCall i Sn G
      = ((t - ((i : ℝ) + 1) * (t / n_steps)) / t) *
          ((G * (Sn / G) ^ ((t - ((i : ℝ) + 1) * (t / n_steps)) / t)) / Sn) *
          gao_delta_b Φ (G * (Sn / G) ^ ((t - ((i : ℝ) + 1) * (t / n_steps)) / t)) K
            (sigma * Real.sqrt ((t - ((i : ℝ) + 1) * (t / n_steps)) / (3 * t)))
            (t - ((i : ℝ) + 1) * (t / n_steps)) r isCall := by
  have hfrac : 1 - ((i : ℝ) + 1) / (n_steps : ℝ)
      = (t - ((i : ℝ) + 1) * (t / n_steps)) / t := by
    rcases eq_or_ne ((n_steps : ℝ)) 0 with hn | hn
    · rw [hn]
      simp [ht.ne']
    · field_simp
      ring
  simp only [asian_new_delta]
  rw [hfrac, div_div, mul_comm t 3]

/-- Witness for the amended claim C3 at concrete parameters. -/
theorem asian_new_delta_chain_rule_witness :
    (0:ℝ) < 1 ∧
    asian_new_delta (fun x => x) 1 1 1 0 (1 / ((2:ℕ) : ℝ)) 2 true 0 1 1
      = ((1 - (((0:ℕ) : ℝ) + 1) * (1 / ((2:ℕ) : ℝ))) / 1) *
          ((1 * ((1:ℝ) / 1) ^ ((1 - (((0:ℕ) : ℝ) + 1) * (1 / ((2:ℕ) : ℝ))) / 1)) / 1) *
          gao_delta_b (fun x => x)
            (1 * ((1:ℝ) / 1) ^ ((1 - (((0:ℕ) : ℝ) + 1) * (1 / ((2:ℕ) : ℝ))) / 1)) 1
            (1 * Real.sqrt ((1 - (((0:ℕ) : ℝ) + 1) * (1 / ((2:ℕ) : ℝ))) / (3 * 1)))
            (1 - (((0:ℕ) : ℝ) + 1) * (1 / ((2:ℕ) : ℝ))) 0 true :=
  ⟨one_pos,
    asian_new_delta_chain_rule (fun x => x) 1 1 1 0 true 2 0 1 1 one_pos⟩

/-! ## Claim C8: the Asian engines at n_steps = 1 -/

/-- Counterexample to claim C8: with `n_steps = 1` the Asian payoff is NOT
the European terminal payoff, because the average includes column 0 (the
initial price).  With `S0 = 1`, `K = 2`, `sigma = 0`, `t = 1`, `r = 0`,
`mu = 1` the single path is `[1, e]`: the arithmetic Asian payoff is
`max((1+e)/2 - 2, 0) = 0` while the European terminal payoff is
`e - 2 ≠ 0`. -/
theorem asian_single_step_not_european :
    monte_carlo_asian (fun x => x) 1 2 0 1 0 1 1 1 false true "call" [[0]]
      = .ok (.inl [0])
    ∧ monte_carlo_european (fun x => x) 1 2 0 1 0 1 1 0 true "call" [[0]]
      = .ok (.inl [Real.exp 1 - 2])
    ∧ Real.exp 1 - 2 ≠ 0 := by
  have he3 : Real.exp 1 < 3 := lt_trans Real.exp_one_lt_d9 (by norm_num)
  have he2 : (2:ℝ) < Real.exp 1 := lt_trans (by norm_num) Real.exp_one_gt_d9
  refine ⟨?_, ?_, by linarith⟩
  · simp only [monte_carlo_asian, GBM_paths, String.reduceEq, reduceIte]
    simp [GBM_row, cumsum, cumsum_go, asianAvg, listMean, log_return]
    linarith
  · simp only [monte_carlo_european, GBM_paths, String.reduceEq, reduceIte]
    simp [GBM_row, cumsum, cumsum_go, log_return]
    linarith

/-- Claim C8 as amended: with `n_steps = 1` the averaged quantity entering
the Asian payoff is the mean (respectively geometric mean) of the TWO grid
entries — the initial price S0 and the terminal price — not the terminal
observation alone, and the discounted payoff of `monte_carlo_asian` is the
payoff of that two-point average. -/
theorem monte_carlo_asian_single_step (Φ : ℝ → ℝ) (S0 K sigma t r mu : ℝ)
    (n_sims : ℕ) (geometric : Bool) (ot : String) (noise : List (List ℝ))
    (hot : ot = "call" ∨ ot = "put") (hrows : ∀ nr ∈ noise, nr.length = 1) :
    (∀ a b : ℝ, asianAvg false [a, b] = (a + b) / 2)
    ∧ (∀ a b : ℝ, asianAvg true [a, b]
        = Real.exp ((Real.log a + Real.log b) / 2))
    ∧ monte_carlo_asian Φ S0 K sigma t r mu n_sims 1 geometric true ot noise
        = .ok (.inl ((GBM_paths S0 sigma t r mu n_sims 1 noise).map (fun row =>
            Real.exp (-(r * t)) * (if ot = "call"
              then max (asianAvg geometric [row.getD 0 0, row.getD 1 0] - K) 0
              else max (K - asianAvg geometric [row.getD 0 0, row.getD 1 0]) 0)))) := by
  refine ⟨?_, ?_, ?_⟩
  · intro a b
    simp [asianAvg, listMean]
  · intro a b
    simp [asianAvg, listMean]
  · rcases hot with rfl | rfl <;>
      · simp only [monte_carlo_asian, GBM_paths, List.map_map, String.reduceEq,
          reduceIte]
        simp only [Except.ok.injEq, Sum.inl.injEq, List.map_inj_left]
        intro nr hnr
        obtain ⟨z, rfl⟩ := List.length_eq_one.1 (hrows nr hnr)
        simp [GBM_row, cumsum, cumsum_go]

/-- Witness for the amended claim C8 at a concrete 1×1 noise matrix. -/
theorem monte_carlo_asian_single_step_witness :
    ("call" = "call" ∨ "call" = "put") ∧
    ((∀ a b : ℝ, asianAvg false [a, b] = (a + b) / 2)
    ∧ (∀ a b : ℝ, asianAvg true [a, b]
        = Real.exp ((Real.log a + Real.log b) / 2))
    ∧ monte_carlo_asian (fun x => x) 100 95 (1/5) 1 (1/20) 0 1 1 true true "call" [[0]]
        = .ok (.inl ((GBM_paths 100 (1/5) 1 (1/20) 0 1 1 [[0]]).map (fun row =>
            Real.exp (-((1/20 : ℝ) * 1)) * (if "call" = "call"
              then max (asianAvg true [row.getD 0 0, row.getD 1 0] - 95) 0
              else max (95 - asianAvg true [row.getD 0 0, row.getD 1 0]) 0))))) :=
  ⟨Or.inl rfl,
    monte_carlo_asian_single_step (fun x => x) 100 95 (1/5) 1 (1/20) 0 1 true
      "call" [[0]] (Or.inl rfl) (by simp)⟩

end

end AsianHedging
